import Mathlib

/-!
A shallow embedding of `src/dataStructures/Digraph.hpp` (a generic directed
graph stored as adjacency lists inside a `std::map<int, DigraphVertex>`),
together with theorems checking the natural-language specification against it.

Modelling conventions:
* `std::map<int, T>` is modelled as an association list `List (Int × T)` whose
  keys are kept sorted and unique by the insertion helpers, exactly as the
  C++ ordered map keeps them.  `mapFind` is `std::map::find`, `mapInsert` is
  `std::map::insert` (which silently does nothing when the key is present),
  `mapSet` is assignment through `operator[]`, `mapErase` is `erase`.
* C++ `double` arithmetic on edge weights is modelled exactly with `ℚ`; the
  conversion `double → int` (used by the code when it stores a tentative
  distance into the `int` field `DijkstraInfo::d`) truncates toward zero and
  is modelled by `cppTrunc`.
* A function that can throw a `DigraphException` returns
  `Option DigraphError × state` (the state component is the state of the
  object when the exception propagates) or `Except DigraphError result`
  for const member functions.
* `std::list::erase(it)` invalidates `it`; a subsequent `it++` on the
  invalidated iterator is undefined behaviour.  The one loop in the source
  that does this (`removeVertex`'s incoming-edge scan) is therefore modelled
  as a partial function returning `none` at the point where the undefined
  increment would be executed.
-/

namespace DG

/-- `DigraphException` reasons, per the specification's error taxonomy.
The source's `DigraphException` carries only a message string; every message
actually thrown by `Digraph.hpp` reports a missing vertex or edge, i.e. is a
`NotFound`.  No code path in the source produces an `AlreadyExists`. -/
inductive DigraphError where
  | NotFound
  | AlreadyExists
deriving DecidableEq, Repr

/-- `struct DigraphEdge` from the source: from/to vertex numbers and payload. -/
structure DigraphEdge (E : Type) where
  fromVertex : Int
  toVertex : Int
  einfo : E
deriving DecidableEq, Repr

/-- `struct DigraphVertex` from the source: payload plus outgoing-edge list
(`std::list`, modelled as a `List` with `push_back` appending). -/
structure DigraphVertex (V E : Type) where
  vinfo : V
  edges : List (DigraphEdge E)
deriving DecidableEq, Repr

/-- `class Digraph`: the single data member
`std::map<int, DigraphVertex> container`. -/
structure Digraph (V E : Type) where
  container : List (Int × DigraphVertex V E)
deriving DecidableEq, Repr

/-- `std::map::find`: the value stored at key `k`, if present. -/
def mapFind (k : Int) : List (Int × α) → Option α
  | [] => none
  | (k₁, v) :: rest => if k = k₁ then some v else mapFind k rest

/-- `std::map::insert`: inserts at the sorted position; does nothing (no
overwrite, no error) when the key is already present. -/
def mapInsert (k : Int) (v : α) : List (Int × α) → List (Int × α)
  | [] => [(k, v)]
  | (k₁, v₁) :: rest =>
    if k < k₁ then (k, v) :: (k₁, v₁) :: rest
    else if k = k₁ then (k₁, v₁) :: rest
    else (k₁, v₁) :: mapInsert k v rest

/-- Assignment through `std::map::operator[]`: overwrites the value at `k`,
inserting at the sorted position when absent. -/
def mapSet (k : Int) (v : α) : List (Int × α) → List (Int × α)
  | [] => [(k, v)]
  | (k₁, v₁) :: rest =>
    if k < k₁ then (k, v) :: (k₁, v₁) :: rest
    else if k = k₁ then (k, v) :: rest
    else (k₁, v₁) :: mapSet k v rest

/-- `std::map::erase` of the entry found for `k` (keys are unique). -/
def mapErase (k : Int) : List (Int × α) → List (Int × α)
  | [] => []
  | (k₁, v₁) :: rest => if k = k₁ then rest else (k₁, v₁) :: mapErase k rest

/-- Read through `std::map::operator[]` with a value-initialized default.
(The default-insertion that `operator[]` also performs never changes any
observable result proved below; see the comments at the uses.) -/
def mapGetD (k : Int) (l : List (Int × α)) (d : α) : α :=
  (mapFind k l).getD d

namespace Digraph

variable {V E : Type}

/-- The default constructor: an empty graph. -/
def empty : Digraph V E := ⟨[]⟩

/-- `vertices()`: all vertex numbers, in `std::map` (sorted) order. -/
def vertices (g : Digraph V E) : List Int :=
  g.container.map Prod.fst

/-- `edges()`: every `(fromVertex, toVertex)` pair, outer loop over the map,
inner loop over each vertex's outgoing list. -/
def edges (g : Digraph V E) : List (Int × Int) :=
  (g.container.map (fun kv => kv.2.edges.map (fun e => (e.fromVertex, e.toVertex)))).flatten

/-- `edges(vertex)`: pairs for the edges leaving `vertex`; throws when the
vertex is absent. -/
def edgesFrom (g : Digraph V E) (vertex : Int) : Except DigraphError (List (Int × Int)) :=
  match mapFind vertex g.container with
  | none => .error .NotFound
  | some vx => .ok (vx.edges.map (fun e => (e.fromVertex, e.toVertex)))

/-- `vertexInfo(vertex)`: the payload at `vertex`; throws when absent. -/
def vertexInfo (g : Digraph V E) (vertex : Int) : Except DigraphError V :=
  match mapFind vertex g.container with
  | none => .error .NotFound
  | some vx => .ok vx.vinfo

/-- The scan inside `edgeInfo`: first edge of the list whose `toVertex`
matches, if any. -/
def findEdgeTo (toVertex : Int) : List (DigraphEdge E) → Option E
  | [] => none
  | e :: rest => if e.toVertex = toVertex then some e.einfo else findEdgeTo toVertex rest

/-- `edgeInfo(fromVertex, toVertex)`: payload of the first matching edge in
`fromVertex`'s outgoing list; throws when `fromVertex` is absent or no edge
matches. -/
def edgeInfo (g : Digraph V E) (fromVertex toVertex : Int) : Except DigraphError E :=
  match mapFind fromVertex g.container with
  | none => .error .NotFound
  | some vx =>
    match findEdgeTo toVertex vx.edges with
    | some i => .ok i
    | none => .error .NotFound

/-- `addVertex(vertex, vinfo)`: a bare `container.insert(...)`.  The source
never checks whether the key is present and never throws here; on a duplicate
key `std::map::insert` silently leaves the map unchanged. -/
def addVertex (g : Digraph V E) (vertex : Int) (vinfo : V) : Digraph V E :=
  ⟨mapInsert vertex ⟨vinfo, []⟩ g.container⟩

/-- `addEdge(fromVertex, toVertex, einfo)`.  Checks that both endpoints exist
(throwing `NotFound` otherwise, with the graph untouched) and then
unconditionally `push_back`s the new edge — the source performs no duplicate
check.  The second component is the state of the object after the call. -/
def addEdgeRun (g : Digraph V E) (fromVertex toVertex : Int) (einfo : E) :
    Option DigraphError × Digraph V E :=
  match mapFind fromVertex g.container with
  | none => (some .NotFound, g)
  | some vx =>
    match mapFind toVertex g.container with
    | none => (some .NotFound, g)
    | some _ =>
      (none, ⟨mapSet fromVertex ⟨vx.vinfo, vx.edges ++ [⟨fromVertex, toVertex, einfo⟩]⟩
                g.container⟩)

/-- `addEdge` when it succeeds (both endpoints present). -/
def addEdge (g : Digraph V E) (fromVertex toVertex : Int) (einfo : E) : Digraph V E :=
  (addEdgeRun g fromVertex toVertex einfo).2

/-- The inner loop of `removeVertex`:
`for(it_list = temp.begin(); it_list != temp.end(); it_list++)
   if(it_list->toVertex == vertex) temp.erase(it_list);`.
`std::list::erase(it_list)` invalidates `it_list`, so the loop's `it_list++`
that follows the erase is executed on an invalidated iterator — undefined
behaviour per the C++ standard.  The undefined continuation is modelled as
`none`. -/
def eraseIncoming (vertex : Int) : List (DigraphEdge E) → Option (List (DigraphEdge E))
  | [] => some []
  | e :: rest =>
    if e.toVertex = vertex then none
    else (eraseIncoming vertex rest).map (e :: ·)

/-- The outer loop of `removeVertex`'s incoming-edge scan, over every
remaining vertex. -/
def eraseIncomingAll (vertex : Int) :
    List (Int × DigraphVertex V E) → Option (List (Int × DigraphVertex V E))
  | [] => some []
  | (k, vx) :: rest =>
    match eraseIncoming vertex vx.edges with
    | none => none
    | some es => (eraseIncomingAll vertex rest).map ((k, ⟨vx.vinfo, es⟩) :: ·)

/-- `removeVertex(vertex)`: throws `NotFound` (graph untouched) when absent;
otherwise erases the vertex record and then scans all remaining vertices'
outgoing lists for incoming edges.  The overall result is `none` when that
scan reaches its undefined iterator increment (which happens exactly when
some remaining list still holds an edge into `vertex`). -/
def removeVertexRun (g : Digraph V E) (vertex : Int) :
    Option (Option DigraphError × Digraph V E) :=
  match mapFind vertex g.container with
  | none => some (some .NotFound, g)
  | some _ =>
    match eraseIncomingAll vertex (mapErase vertex g.container) with
    | none => none
    | some c => some (none, ⟨c⟩)

/-- The scan inside `removeEdge`: erase the first edge whose `toVertex`
matches and return immediately (`erase` followed by `return` — no increment
of the invalidated iterator, so this loop is well defined); `none` when no
edge matches. -/
def eraseFirstEdgeTo (toVertex : Int) : List (DigraphEdge E) → Option (List (DigraphEdge E))
  | [] => none
  | e :: rest =>
    if e.toVertex = toVertex then some rest
    else (eraseFirstEdgeTo toVertex rest).map (e :: ·)

/-- `removeEdge(fromVertex, toVertex)`: throws `NotFound` when `fromVertex`
is absent or no matching edge exists; otherwise removes exactly the first
matching edge.  The second component is the state after the call. -/
def removeEdgeRun (g : Digraph V E) (fromVertex toVertex : Int) :
    Option DigraphError × Digraph V E :=
  match mapFind fromVertex g.container with
  | none => (some .NotFound, g)
  | some vx =>
    match eraseFirstEdgeTo toVertex vx.edges with
    | none => (some .NotFound, g)
    | some es => (none, ⟨mapSet fromVertex ⟨vx.vinfo, es⟩ g.container⟩)

/-- `vertexCount()`: `container.size()`. -/
def vertexCount (g : Digraph V E) : Int :=
  g.container.length

/-- `edgeCount()`: sum of the outgoing-list sizes. -/
def edgeCount (g : Digraph V E) : Int :=
  g.container.foldl (fun n kv => n + kv.2.edges.length) 0

/-- The copy constructor / copy assignment body: rebuild the container by
re-adding every vertex and every edge of `d` in iteration order.  (Copy
assignment first clears the target, so both produce exactly this graph.) -/
def copyOf (d : Digraph V E) : Digraph V E :=
  d.container.foldl
    (fun g kv =>
      kv.2.edges.foldl (fun g e => addEdge g kv.1 e.toVertex e.einfo)
        (addVertex g kv.1 kv.2.vinfo))
    empty

/-- The move constructor body is `container = d.container;` — a copy, not a
move (`d.container` is an lvalue and no `std::move` is applied), so the
moved-from graph keeps its contents.  Result: (new object, state of `d`
after the construction). -/
def moveConstruct (d : Digraph V E) : Digraph V E × Digraph V E :=
  (⟨d.container⟩, d)

/-- The move assignment body is likewise `container = d.container;`, a copy.
Result: (state of the target after the call, state of `d` after the call). -/
def moveAssign (_target : Digraph V E) (d : Digraph V E) : Digraph V E × Digraph V E :=
  (⟨d.container⟩, d)

/-- `countConnectVertices(visitRecords)`: number of entries marked `true`. -/
def countConnectVertices (visitRecords : List (Int × Bool)) : Nat :=
  (visitRecords.filter (fun kv => kv.2 = true)).length

/-- `DFTr(vertexIndex, v, visitRecords)`: mark `vertexIndex` visited, then for
each outgoing edge whose target is unvisited, recurse on the target.  The C++
recursion terminates because every recursive call is on a vertex that the
call immediately marks visited; the embedding carries that bound explicitly
as `fuel` (the callers pass `vertexCount + 1`, which the fuel-sufficiency
lemmas below show is never exhausted on well-formed graphs).  The recursion
looks the target up with `container.at(...)`, which on a well-formed graph
always succeeds; the `.elim []` branch is unreachable there (on a graph with
a dangling edge the C++ would throw `std::out_of_range` instead). -/
def DFTr (g : Digraph V E) : Nat → Int → List (Int × Bool) → List (Int × Bool)
  | 0, _, visitRecords => visitRecords
  | fuel + 1, vertexIndex, visitRecords =>
    ((mapFind vertexIndex g.container).elim [] DigraphVertex.edges).foldl
      (fun vis e =>
        if mapGetD e.toVertex vis false = false then DFTr g fuel e.toVertex vis else vis)
      (mapSet vertexIndex true visitRecords)

/-- The all-`false` visit map the outer loop of `isStronglyConnected` refills
before each traversal (one entry per vertex of the graph). -/
def freshVisit (g : Digraph V E) : List (Int × Bool) :=
  g.container.map (fun kv => (kv.1, false))

/-- `isStronglyConnected()`: for every vertex, run the depth-first traversal
from it over a freshly reset visit map and check that it marked every vertex;
short-circuit `false` otherwise. -/
def isStronglyConnected (g : Digraph V E) : Bool :=
  g.container.all (fun kv =>
    countConnectVertices (DFTr g (g.container.length + 1) kv.1 (freshVisit g)) =
      g.container.length)

/-- `INT_MAX`, the initial "infinite" tentative distance. -/
def intMax : Int := 2147483647

/-- `struct DijkstraInfo` from the source: finalized flag, tentative distance
(an `int`!  this is where fractional weights get truncated), predecessor. -/
structure DijkstraInfo where
  kFlag : Bool
  d : Int
  p : Int
deriving DecidableEq, Repr

/-- A value-initialized `DijkstraInfo`, what `vData[k]` would default-insert
for an absent key (never reached on well-formed graphs, where `vData` holds
every vertex from initialization on). -/
def dflt : DijkstraInfo := ⟨false, 0, 0⟩

/-- The C++ conversion `double → int`: truncation toward zero. -/
def cppTrunc (q : ℚ) : Int :=
  if q < 0 then ⌈q⌉ else ⌊q⌋

/-- The initialization loop of `findShortestPaths`: every vertex gets
`{false, INT_MAX, itself}`, then `vData[startVertex].d = 0` and
`vData[startVertex].p = startVertex`. -/
def dijkstraInit (g : Digraph V E) (startVertex : Int) : List (Int × DijkstraInfo) :=
  let v0 := g.container.foldl (fun m kv => mapSet kv.1 ⟨false, intMax, kv.1⟩ m) []
  let s := mapGetD startVertex v0 dflt
  mapSet startVertex ⟨s.kFlag, 0, startVertex⟩ v0

/-- `pqueue.push`: the queue is modelled as the plain list of its elements. -/
def pqPush (pq : List (Int × Int)) (x : Int × Int) : List (Int × Int) :=
  pq ++ [x]

/-- `pqueue.top()`/`pop()`.  The source instantiates `std::priority_queue`
with `Compare`, i.e. `lhs.first < rhs.first`, so `top()` is an element with
the LARGEST key (a max-heap on tentative distance — the inverted ordering
that §9 of the specification flags).  Among equal keys `std::priority_queue`
leaves the choice unspecified; the model deterministically takes the earliest
maximal element (every concrete run below pops while all maximal keys are
unique, so the results do not depend on this tie-break). -/
def pqPop : List (Int × Int) → Option ((Int × Int) × List (Int × Int))
  | [] => none
  | x :: xs =>
    match pqPop xs with
    | none => some (x, [])
    | some (m, rest) => if m.1 ≤ x.1 then some (x, xs) else some (m, x :: rest)

/-- The relaxation loop over the (copied) outgoing-edge list of the popped
vertex `vIndex`.  `vD` and `wD` are references into `vData` in the C++, so
both are re-read from the current map on every iteration.  The comparison
`wD.d > vD.d + weight(einfo)` happens in `double` (exact, modelled in `ℚ`);
the assignment `wD.d = vD.d + weight(einfo)` truncates the sum back to
`int`; the pair pushed carries the already-truncated `wD.d`. -/
def relaxEdges (weight : E → ℚ) (vIndex : Int) :
    List (DigraphEdge E) → List (Int × DijkstraInfo) × List (Int × Int) →
      List (Int × DijkstraInfo) × List (Int × Int)
  | [], st => st
  | e :: rest, (vData, pq) =>
    let vD := mapGetD vIndex vData dflt
    let wD := mapGetD e.toVertex vData dflt
    if (vD.d : ℚ) + weight e.einfo < (wD.d : ℚ) then
      let nd := cppTrunc ((vD.d : ℚ) + weight e.einfo)
      relaxEdges weight vIndex rest
        (mapSet e.toVertex ⟨wD.kFlag, nd, vIndex⟩ vData, pqPush pq (nd, e.toVertex))
    else
      relaxEdges weight vIndex rest (vData, pq)

/-- The `while(pqueue.size() != 0)` loop.  Each iteration pops one entry; an
entry is pushed only by a successful relaxation, each vertex's outgoing edges
are relaxed at most once (the `kFlag` check), so on a well-formed graph at
most `1 + edgeCount` entries are ever pushed and the fuel
`2 + edgeCount` passed by `findShortestPaths` is never exhausted.  As in
`DFTr`, `container.at(vIndex)` is modelled by `.elim []`, a branch that is
unreachable on well-formed graphs. -/
def dijkstraLoop (g : Digraph V E) (weight : E → ℚ) :
    Nat → List (Int × DijkstraInfo) → List (Int × Int) → List (Int × DijkstraInfo)
  | 0, vData, _ => vData
  | fuel + 1, vData, pq =>
    match pqPop pq with
    | none => vData
    | some ((_, vIndex), pq₁) =>
      let vD := mapGetD vIndex vData dflt
      if vD.kFlag then dijkstraLoop g weight fuel vData pq₁
      else
        let st := relaxEdges weight vIndex
          ((mapFind vIndex g.container).elim [] DigraphVertex.edges)
          (mapSet vIndex ⟨true, vD.d, vD.p⟩ vData, pq₁)
        dijkstraLoop g weight fuel st.1 st.2

/-- `findShortestPaths(startVertex, edgeWeightFunc)`: throws `NotFound` when
the start is absent; otherwise runs the loop and copies each vertex's `p`
field into the answer map. -/
def findShortestPaths (g : Digraph V E) (startVertex : Int) (weight : E → ℚ) :
    Except DigraphError (List (Int × Int)) :=
  match mapFind startVertex g.container with
  | none => .error .NotFound
  | some _ =>
    let final := dijkstraLoop g weight (2 + g.edgeCount.toNat)
      (dijkstraInit g startVertex) [(0, startVertex)]
    .ok (final.foldl (fun ans kv => mapSet kv.1 kv.2.p ans) [])

/-- Pop for a queue with exact rational keys, max-first (the source's
inverted `Compare` ordering), earliest among ties. -/
def pqPopQMax : List (ℚ × Int) → Option ((ℚ × Int) × List (ℚ × Int))
  | [] => none
  | x :: xs =>
    match pqPopQMax xs with
    | none => some (x, [])
    | some (m, rest) => if m.1 ≤ x.1 then some (x, xs) else some (m, x :: rest)

/-- Pop for a queue with exact rational keys, min-first (the ordering the
specification prescribes), earliest among ties. -/
def pqPopQMin : List (ℚ × Int) → Option ((ℚ × Int) × List (ℚ × Int))
  | [] => none
  | x :: xs =>
    match pqPopQMin xs with
    | none => some (x, [])
    | some (m, rest) => if x.1 ≤ m.1 then some (x, xs) else some (m, x :: rest)

/-- `DijkstraInfo` with the tentative distance kept as an exact rational
instead of a truncated `int`.  Used only by the contrast definitions below. -/
structure DijkstraInfoQ where
  kFlag : Bool
  d : ℚ
  p : Int
deriving DecidableEq, Repr

/-- The relaxation loop with exact rational tentative distances: identical to
`relaxEdges` except that the sum `vD.d + weight(einfo)` is stored without the
`double → int` truncation. -/
def relaxEdgesQ (weight : E → ℚ) (vIndex : Int) :
    List (DigraphEdge E) → List (Int × DijkstraInfoQ) × List (ℚ × Int) →
      List (Int × DijkstraInfoQ) × List (ℚ × Int)
  | [], st => st
  | e :: rest, (vData, pq) =>
    let vD := mapGetD vIndex vData ⟨false, 0, 0⟩
    let wD := mapGetD e.toVertex vData ⟨false, 0, 0⟩
    if vD.d + weight e.einfo < wD.d then
      let nd := vD.d + weight e.einfo
      relaxEdgesQ weight vIndex rest
        (mapSet e.toVertex ⟨wD.kFlag, nd, vIndex⟩ vData, pq ++ [(nd, e.toVertex)])
    else
      relaxEdgesQ weight vIndex rest (vData, pq)

/-- The main loop with exact rational distances, parameterized by the pop
discipline (max-first reproduces the source's queue, min-first the
specification's). -/
def dijkstraLoopQ (g : Digraph V E) (weight : E → ℚ)
    (pop : List (ℚ × Int) → Option ((ℚ × Int) × List (ℚ × Int))) :
    Nat → List (Int × DijkstraInfoQ) → List (ℚ × Int) → List (Int × DijkstraInfoQ)
  | 0, vData, _ => vData
  | fuel + 1, vData, pq =>
    match pop pq with
    | none => vData
    | some ((_, vIndex), pq₁) =>
      let vD := mapGetD vIndex vData ⟨false, 0, 0⟩
      if vD.kFlag then dijkstraLoopQ g weight pop fuel vData pq₁
      else
        let st := relaxEdgesQ weight vIndex
          ((mapFind vIndex g.container).elim [] DigraphVertex.edges)
          (mapSet vIndex ⟨true, vD.d, vD.p⟩ vData, pq₁)
        dijkstraLoopQ g weight pop fuel st.1 st.2

/-- The shared shell for the two contrast variants. -/
def findShortestPathsQ (g : Digraph V E) (startVertex : Int) (weight : E → ℚ)
    (pop : List (ℚ × Int) → Option ((ℚ × Int) × List (ℚ × Int))) :
    Except DigraphError (List (Int × Int)) :=
  match mapFind startVertex g.container with
  | none => .error .NotFound
  | some _ =>
    let v0 := g.container.foldl (fun m kv => mapSet kv.1 ⟨false, (intMax : ℚ), kv.1⟩ m)
      ([] : List (Int × DijkstraInfoQ))
    let s := mapGetD startVertex v0 ⟨false, 0, 0⟩
    let init := mapSet startVertex ⟨s.kFlag, 0, startVertex⟩ v0
    let final := dijkstraLoopQ g weight pop (2 + g.edgeCount.toNat) init [(0, startVertex)]
    .ok (final.foldl (fun ans kv => mapSet kv.1 kv.2.p ans) [])

/-- The source's `findShortestPaths` with one single change: the tentative
distance is kept as the exact numeric sum (the specification's
"compares and stores tentative distances as the exact numeric sum of the
edge weights"), instead of being truncated into the `int` field
`DijkstraInfo::d`.  The queue discipline is the source's (max-first).
Used to contrast with `findShortestPaths` for claim C6. -/
def findShortestPathsExactD (g : Digraph V E) (startVertex : Int) (weight : E → ℚ) :
    Except DigraphError (List (Int × Int)) :=
  findShortestPathsQ g startVertex weight pqPopQMax

/-- Modelled from the spec (§4.3): standard Dijkstra — a MIN-priority queue
keyed by the exact tentative distance ("repeatedly extract the
not-yet-finalized vertex with the smallest tentative distance"), everything
else as in the source.  Used to contrast with `findShortestPaths` for
claim C1. -/
def findShortestPathsSpec (g : Digraph V E) (startVertex : Int) (weight : E → ℚ) :
    Except DigraphError (List (Int × Int)) :=
  findShortestPathsQ g startVertex weight pqPopQMin

end Digraph

variable {V E : Type}

/-- Well-formedness of a graph state, true of every state reachable through
the public interface: the map keys are strictly sorted (as `std::map` keeps
them) and every stored edge's endpoints refer to present vertices, with the
`fromVertex` field naming the list the edge lives in. -/
def WellFormed (g : Digraph V E) : Prop :=
  (g.container.map Prod.fst).Pairwise (· < ·) ∧
    ∀ kv ∈ g.container, ∀ e ∈ kv.2.edges,
      e.fromVertex = kv.1 ∧ e.toVertex ∈ g.container.map Prod.fst

instance (g : Digraph V E) : Decidable (WellFormed g) := by
  unfold WellFormed; infer_instance

/-- One directed step: the graph has an edge from `u` to `v` (stored in `u`'s
outgoing list). -/
def EdgeStep (g : Digraph V E) (u v : Int) : Prop :=
  ∃ vx, mapFind u g.container = some vx ∧ ∃ e ∈ vx.edges, e.toVertex = v

/-- `v` is reachable from `u` along directed edges. -/
def Reachable (g : Digraph V E) (u v : Int) : Prop :=
  Relation.ReflTransGen (EdgeStep g) u v

/-- Total weight of a path given as a vertex list, summing the weight of the
first stored edge between consecutive vertices; `none` if some hop has no
edge. -/
def pathWeight (g : Digraph V E) (weight : E → ℚ) : List Int → Option ℚ
  | [] => some 0
  | [_] => some 0
  | u :: v :: rest =>
    match mapFind u g.container with
    | none => none
    | some vx =>
      match Digraph.findEdgeTo v vx.edges with
      | none => none
      | some i => (pathWeight g weight (v :: rest)).map (weight i + ·)

/-- Number of vertices still unvisited in a visit map (used to measure the
progress of the depth-first traversal in the proof of C8). -/
def falseCount (vis : List (Int × Bool)) : Nat :=
  (vis.filter (fun kv => kv.2 = false)).length

/-- The loop invariant used to prove C7: throughout `dijkstraLoop`,
`vData` keeps exactly the graph's keys, all tentative distances are
non-negative, the start keeps distance 0 and predecessor itself, a vertex
whose predecessor differs from itself is reachable from the start, and every
queued vertex is a graph vertex reachable from the start. -/
def DijkstraInv (g : Digraph V E) (s : Int)
    (vData : List (Int × Digraph.DijkstraInfo)) (pq : List (Int × Int)) : Prop :=
  vData.map Prod.fst = g.container.map Prod.fst ∧
  (∀ kv ∈ vData, 0 ≤ kv.2.d) ∧
  (∃ b, mapFind s vData = some ⟨b, 0, s⟩) ∧
  (∀ kv ∈ vData, kv.2.p ≠ kv.1 → Reachable g s kv.1) ∧
  (∀ x ∈ pq, x.2 ∈ g.container.map Prod.fst ∧ Reachable g s x.2)

/-! ### Concrete graphs used by individual claims -/

open Digraph in
/-- Two vertices `1`, `2`, no edges. -/
def gPair : Digraph Int Int := addVertex (addVertex empty 1 0) 2 0

open Digraph in
/-- `gPair` plus the single edge `1→2` (payload `10`). -/
def gOneEdge : Digraph Int Int := addEdge gPair 1 2 10

open Digraph in
/-- `gOneEdge` plus a second, duplicate edge `1→2` (payload `20`) — the
source's `addEdge` happily appends it. -/
def gDup : Digraph Int Int := addEdge gOneEdge 1 2 20

open Digraph in
/-- A single vertex `1` with payload `10`, no edges. -/
def gV1 : Digraph Int Int := addVertex empty 1 10

open Digraph in
/-- The three-cycle `1→2→3→1`. -/
def gCycle3 : Digraph Int Int :=
  addEdge (addEdge (addEdge
    (addVertex (addVertex (addVertex empty 1 0) 2 0) 3 0) 1 2 0) 2 3 0) 3 1 0

open Digraph in
/-- Failing input for the queue ordering (claim C1): vertices `1..4` with
edges `1→2` (weight 10), `1→3` (1), `1→4` (5), `3→2` (1), `2→4` (1);
all weights integral, so truncation plays no role.  The unique minimum-weight
path from `1` to `4` is `1→3→2→4` of total weight 3 (the only other way into
`4` costs at least 5), so the predecessor of `4` must be `2`. -/
def gQueueBug : Digraph Int ℚ :=
  addEdge (addEdge (addEdge (addEdge (addEdge
    (addVertex (addVertex (addVertex (addVertex empty 1 0) 2 0) 3 0) 4 0)
    1 2 10) 1 3 1) 1 4 5) 3 2 1) 2 4 1

open Digraph in
/-- Failing input for the distance truncation (claim C6): vertices `1,2,3`
with edges `1→2` (weight 3/5), `1→3` (1), `2→3` (3/5).  Exactly summed, the
two-hop route to `3` costs 6/5 > 1, so the direct edge wins; with each sum
truncated to `int`, the two-hop route is recorded as distance 0 and wins. -/
def gTrunc : Digraph Int ℚ :=
  addEdge (addEdge (addEdge
    (addVertex (addVertex (addVertex empty 1 0) 2 0) 3 0)
    1 2 (3/5)) 1 3 1) 2 3 (3/5)

/-! ### Association-list lemmas shared by several proofs -/

theorem mapFind_mapSet_self (k : Int) (v : α) (l : List (Int × α)) :
    mapFind k (mapSet k v l) = some v := by
  induction l with
  | nil => simp [mapSet, mapFind]
  | cons kv rest ih =>
    by_cases h₁ : k < kv.1
    · simp [mapSet, h₁, mapFind]
    · by_cases h₂ : k = kv.1
      · simp [mapSet, h₁, h₂, mapFind]
      · simp [mapSet, h₁, h₂, mapFind, ih]

theorem mapFind_mapSet_ne (k k₁ : Int) (v : α) (l : List (Int × α)) (h : k₁ ≠ k) :
    mapFind k₁ (mapSet k v l) = mapFind k₁ l := by
  induction l with
  | nil => simp [mapSet, mapFind, h]
  | cons kv rest ih =>
    by_cases h₁ : k < kv.1
    · simp [mapSet, h₁, mapFind, h]
    · by_cases h₂ : k = kv.1
      · subst h₂; simp [mapSet, h₁, mapFind, h]
      · by_cases h₃ : k₁ = kv.1 <;> simp [mapSet, h₁, h₂, mapFind, h₃, ih]

theorem mapFind_mem {l : List (Int × α)} {k : Int} {v : α}
    (h : mapFind k l = some v) : (k, v) ∈ l := by
  induction l with
  | nil => simp [mapFind] at h
  | cons kv rest ih =>
    by_cases hk : k = kv.1
    · simp [mapFind, hk] at h
      subst hk h
      exact List.mem_cons_self _ _
    · simp [mapFind, hk] at h
      exact List.mem_cons_of_mem _ (ih h)

theorem mem_keys_exists_find {l : List (Int × α)} {k : Int}
    (h : k ∈ l.map Prod.fst) : ∃ v, mapFind k l = some v := by
  induction l with
  | nil => simp at h
  | cons kv rest ih =>
    by_cases hk : k = kv.1
    · exact ⟨kv.2, by simp [mapFind, hk]⟩
    · simp only [List.map_cons, List.mem_cons] at h
      rcases h with h | h
      · exact absurd h hk
      · obtain ⟨v, hv⟩ := ih h
        exact ⟨v, by simp [mapFind, hk, hv]⟩

theorem mapSet_keys_of_mem {l : List (Int × α)} {k : Int}
    (hsort : (l.map Prod.fst).Pairwise (· < ·))
    (h : k ∈ l.map Prod.fst) (v : α) :
    (mapSet k v l).map Prod.fst = l.map Prod.fst := by
  induction l with
  | nil => simp at h
  | cons kv rest ih =>
    simp only [List.map_cons, List.pairwise_cons] at hsort
    by_cases hk : k = kv.1
    · have hlt : ¬ k < kv.1 := by omega
      simp [mapSet, hk, hlt]
    · simp only [List.map_cons, List.mem_cons] at h
      rcases h with h | h
      · exact absurd h hk
      · have hgt : kv.1 < k := hsort.1 k h
        have hlt : ¬ k < kv.1 := by omega
        simp [mapSet, hk, hlt, ih hsort.2 h]

theorem mem_mapSet {l : List (Int × α)} {k : Int} {v : α} {x : Int × α}
    (h : x ∈ mapSet k v l) : x = (k, v) ∨ x ∈ l := by
  induction l with
  | nil => simp [mapSet] at h; simp [h]
  | cons kv rest ih =>
    by_cases h₁ : k < kv.1
    · simp [mapSet, h₁] at h
      rcases h with h | h | h
      · exact Or.inl (by simp [h])
      · exact Or.inr (by simp [h])
      · exact Or.inr (List.mem_cons_of_mem _ h)
    · by_cases h₂ : k = kv.1
      · simp [mapSet, h₁, h₂] at h
        rcases h with h | h
        · exact Or.inl (by rw [h, h₂])
        · exact Or.inr (List.mem_cons_of_mem _ h)
      · simp [mapSet, h₁, h₂] at h
        rcases h with h | h
        · exact Or.inr (by simp [h])
        · rcases ih h with h₃ | h₃
          · exact Or.inl h₃
          · exact Or.inr (List.mem_cons_of_mem _ h₃)

theorem mapFind_map_val (f : Int × α → β) (k : Int) (l : List (Int × α)) :
    mapFind k (l.map (fun kv => (kv.1, f kv))) = (mapFind k l).map (fun v => f (k, v)) := by
  induction l with
  | nil => simp [mapFind]
  | cons kv rest ih =>
    by_cases hk : k = kv.1
    · subst hk; simp [mapFind]
    · simp [mapFind, hk, ih]

theorem mapSet_append_gt {l : List (Int × α)} {k : Int}
    (h : ∀ k₁ ∈ l.map Prod.fst, k₁ < k) (v : α) :
    mapSet k v l = l ++ [(k, v)] := by
  induction l with
  | nil => simp [mapSet]
  | cons kv rest ih =>
    have h₀ : kv.1 < k := h kv.1 (by simp)
    have h₁ : ¬ k < kv.1 := by omega
    have h₂ : k ≠ kv.1 := by omega
    simp [mapSet, h₁, h₂, ih (fun k₁ hk₁ => h k₁ (by simp [hk₁]))]

theorem foldl_mapSet_sorted (f : Int × α → β) (l : List (Int × α)) :
    ∀ acc : List (Int × β),
      ((acc.map Prod.fst ++ l.map Prod.fst).Pairwise (· < ·)) →
      l.foldl (fun m kv => mapSet kv.1 (f kv) m) acc =
        acc ++ l.map (fun kv => (kv.1, f kv)) := by
  induction l with
  | nil => intro acc _; simp
  | cons kv rest ih =>
    intro acc hsort
    have hacc : ∀ k₁ ∈ acc.map Prod.fst, k₁ < kv.1 := by
      intro k₁ hk₁
      exact (List.pairwise_append.mp hsort).2.2 k₁ hk₁ kv.1 (by simp)
    have hstep : mapSet kv.1 (f kv) acc = acc ++ [(kv.1, f kv)] := mapSet_append_gt hacc _
    have hsort₁ : (((acc ++ [(kv.1, f kv)]).map Prod.fst) ++ rest.map Prod.fst).Pairwise
        (· < ·) := by
      simp only [List.map_append, List.map_cons, List.map_nil, List.append_assoc,
        List.singleton_append] at hsort ⊢
      exact hsort
    calc (kv :: rest).foldl (fun m kv₁ => mapSet kv₁.1 (f kv₁) m) acc
        = rest.foldl (fun m kv₁ => mapSet kv₁.1 (f kv₁) m) (acc ++ [(kv.1, f kv)]) := by
          simp [hstep]
      _ = (acc ++ [(kv.1, f kv)]) ++ rest.map (fun kv₁ => (kv₁.1, f kv₁)) := ih _ hsort₁
      _ = acc ++ (kv :: rest).map (fun kv₁ => (kv₁.1, f kv₁)) := by simp

/-- `findEdgeTo` returns the payload of the FIRST matching edge. -/
theorem findEdgeTo_first (t : Int) (L₁ L₂ : List (DigraphEdge E)) (e : DigraphEdge E)
    (he : e.toVertex = t) (hL₁ : ∀ x ∈ L₁, x.toVertex ≠ t) :
    Digraph.findEdgeTo t (L₁ ++ e :: L₂) = some e.einfo := by
  induction L₁ with
  | nil => simp [Digraph.findEdgeTo, he]
  | cons a rest ih =>
    have ha : a.toVertex ≠ t := hL₁ a (List.mem_cons_self a rest)
    simp only [List.cons_append, Digraph.findEdgeTo, ha, if_neg ha]
    exact ih (fun x hx => hL₁ x (List.mem_cons_of_mem a hx))

/-- `eraseFirstEdgeTo` removes exactly the FIRST matching edge. -/
theorem eraseFirstEdgeTo_first (t : Int) (L₁ L₂ : List (DigraphEdge E)) (e : DigraphEdge E)
    (he : e.toVertex = t) (hL₁ : ∀ x ∈ L₁, x.toVertex ≠ t) :
    Digraph.eraseFirstEdgeTo t (L₁ ++ e :: L₂) = some (L₁ ++ L₂) := by
  induction L₁ with
  | nil => simp [Digraph.eraseFirstEdgeTo, he]
  | cons a rest ih =>
    have ha : a.toVertex ≠ t := hL₁ a (List.mem_cons_self a rest)
    have ih₁ := ih (fun x hx => hL₁ x (List.mem_cons_of_mem a hx))
    simp [Digraph.eraseFirstEdgeTo, ha, ih₁]

theorem cppTrunc_nonneg {q : ℚ} (h : 0 ≤ q) : 0 ≤ Digraph.cppTrunc q := by
  unfold Digraph.cppTrunc
  rw [if_neg (not_lt.mpr h)]
  exact Int.floor_nonneg.mpr h

theorem pqPop_mem {pq : List (Int × Int)} {x : Int × Int} {rest : List (Int × Int)}
    (h : Digraph.pqPop pq = some (x, rest)) : x ∈ pq ∧ ∀ y ∈ rest, y ∈ pq := by
  induction pq generalizing x rest with
  | nil => simp [Digraph.pqPop] at h
  | cons a xs ih =>
    simp only [Digraph.pqPop] at h
    cases hp : Digraph.pqPop xs with
    | none =>
      rw [hp] at h
      simp only [Option.some.injEq, Prod.mk.injEq] at h
      obtain ⟨hx, hrest⟩ := h
      subst hx hrest
      exact ⟨by simp, by simp⟩
    | some mr =>
      obtain ⟨m, r⟩ := mr
      rw [hp] at h
      obtain ⟨hm, hr⟩ := ih hp
      by_cases hc : m.1 ≤ a.1
      · simp only [hc, if_true, Option.some.injEq, Prod.mk.injEq] at h
        obtain ⟨hx, hrest⟩ := h
        subst hx hrest
        exact ⟨by simp, fun y hy => List.mem_cons_of_mem _ hy⟩
      · simp only [hc, if_false, Option.some.injEq, Prod.mk.injEq] at h
        obtain ⟨hx, hrest⟩ := h
        subst hx hrest
        refine ⟨List.mem_cons_of_mem _ hm, ?_⟩
        intro y hy
        rcases List.mem_cons.mp hy with hy | hy
        · simp [hy]
        · exact List.mem_cons_of_mem _ (hr y hy)

theorem dijkstraInit_eq (g : Digraph V E) (s : Int)
    (hsort : (g.container.map Prod.fst).Pairwise (· < ·))
    (hs : s ∈ g.container.map Prod.fst) :
    Digraph.dijkstraInit g s =
      mapSet s ⟨false, 0, s⟩
        (g.container.map
          (fun kv => (kv.1, (⟨false, Digraph.intMax, kv.1⟩ : Digraph.DijkstraInfo)))) := by
  obtain ⟨vx, hvx⟩ := mem_keys_exists_find hs
  unfold Digraph.dijkstraInit
  rw [foldl_mapSet_sorted
    (fun kv => (⟨false, Digraph.intMax, kv.1⟩ : Digraph.DijkstraInfo)) g.container []
    (by simpa using hsort)]
  simp [mapGetD, mapFind_map_val, hvx]

theorem dijkstraInv_init (g : Digraph V E) (s : Int) (hwf : WellFormed g)
    (hs : s ∈ g.container.map Prod.fst) :
    DijkstraInv g s (Digraph.dijkstraInit g s) [(0, s)] := by
  rw [dijkstraInit_eq g s hwf.1 hs]
  have hkeysmap :
      (g.container.map
        (fun kv => (kv.1, (⟨false, Digraph.intMax, kv.1⟩ : Digraph.DijkstraInfo)))).map
          Prod.fst = g.container.map Prod.fst := by
    simp
  have hsmem : s ∈ (g.container.map
      (fun kv => (kv.1, (⟨false, Digraph.intMax, kv.1⟩ : Digraph.DijkstraInfo)))).map
        Prod.fst := by
    rw [hkeysmap]; exact hs
  refine ⟨?_, ?_, ?_, ?_, ?_⟩
  · rw [mapSet_keys_of_mem (by rw [hkeysmap]; exact hwf.1) hsmem, hkeysmap]
  · intro kv hkv
    rcases mem_mapSet hkv with hkv | hkv
    · subst hkv; exact le_refl 0
    · obtain ⟨kv₁, _, hkv₁⟩ := List.mem_map.mp hkv
      rw [← hkv₁]
      simp [Digraph.intMax]
  · exact ⟨false, mapFind_mapSet_self s _ _⟩
  · intro kv hkv
    rcases mem_mapSet hkv with hkv | hkv
    · subst hkv; intro h; exact absurd rfl h
    · obtain ⟨kv₁, _, hkv₁⟩ := List.mem_map.mp hkv
      rw [← hkv₁]
      intro h; exact absurd rfl h
  · intro x hx
    simp only [List.mem_singleton] at hx
    subst hx
    exact ⟨hs, Relation.ReflTransGen.refl⟩

theorem relaxEdges_inv (g : Digraph V E) (s vIdx : Int) (w : E → ℚ)
    (hw : ∀ x, 0 ≤ w x) (hwf : WellFormed g)
    (hreach : Reachable g s vIdx) (hvIdx : vIdx ∈ g.container.map Prod.fst)
    (es : List (DigraphEdge E)) :
    ∀ (vData : List (Int × Digraph.DijkstraInfo)) (pq : List (Int × Int)),
      (∀ e ∈ es, EdgeStep g vIdx e.toVertex ∧ e.toVertex ∈ g.container.map Prod.fst) →
      DijkstraInv g s vData pq →
      DijkstraInv g s (Digraph.relaxEdges w vIdx es (vData, pq)).1
        (Digraph.relaxEdges w vIdx es (vData, pq)).2 := by
  induction es with
  | nil =>
    intro vData pq _ hInv
    simpa [Digraph.relaxEdges] using hInv
  | cons e rest ih =>
    intro vData pq hes hInv
    obtain ⟨hkeys, hd, hstart, hp, hq⟩ := hInv
    obtain ⟨hstep, hto⟩ := hes e (List.mem_cons_self e rest)
    have hes₁ : ∀ x ∈ rest, EdgeStep g vIdx x.toVertex ∧
        x.toVertex ∈ g.container.map Prod.fst :=
      fun x hx => hes x (List.mem_cons_of_mem e hx)
    obtain ⟨vinfo, hvfind⟩ := mem_keys_exists_find
      (show vIdx ∈ vData.map Prod.fst by rw [hkeys]; exact hvIdx)
    have hvd : (0 : Int) ≤ vinfo.d := hd _ (mapFind_mem hvfind)
    have hget : mapGetD vIdx vData Digraph.dflt = vinfo := by simp [mapGetD, hvfind]
    simp only [Digraph.relaxEdges, hget]
    by_cases hc : (vinfo.d : ℚ) + w e.einfo <
        ((mapGetD e.toVertex vData Digraph.dflt).d : ℚ)
    · rw [if_pos hc]
      apply ih _ _ hes₁
      have hsum : (0 : ℚ) ≤ (vinfo.d : ℚ) + w e.einfo :=
        add_nonneg (by exact_mod_cast hvd) (hw _)
      refine ⟨?_, ?_, ?_, ?_, ?_⟩
      · rw [mapSet_keys_of_mem (by rw [hkeys]; exact hwf.1)
          (by rw [hkeys]; exact hto), hkeys]
      · intro kv hkv
        rcases mem_mapSet hkv with hkv | hkv
        · subst hkv; exact cppTrunc_nonneg hsum
        · exact hd _ hkv
      · obtain ⟨b, hb⟩ := hstart
        by_cases hse : e.toVertex = s
        · subst hse
          have : mapGetD e.toVertex vData Digraph.dflt = ⟨b, 0, e.toVertex⟩ := by
            simp [mapGetD, hb]
          rw [this] at hc
          norm_num at hc
          exact absurd hc (not_lt.mpr hsum)
        · exact ⟨b, by rw [mapFind_mapSet_ne _ _ _ _ (fun h => hse h.symm)]; exact hb⟩
      · intro kv hkv
        rcases mem_mapSet hkv with hkv | hkv
        · subst hkv
          intro _
          exact Relation.ReflTransGen.tail hreach hstep
        · exact hp _ hkv
      · intro x hx
        simp only [Digraph.pqPush, List.mem_append, List.mem_singleton] at hx
        rcases hx with hx | hx
        · exact hq x hx
        · subst hx
          exact ⟨hto, Relation.ReflTransGen.tail hreach hstep⟩
    · rw [if_neg hc]
      exact ih _ _ hes₁ ⟨hkeys, hd, hstart, hp, hq⟩

theorem dijkstraLoop_inv (g : Digraph V E) (s : Int) (w : E → ℚ)
    (hwf : WellFormed g) (hw : ∀ x, 0 ≤ w x) :
    ∀ (fuel : Nat) (vData : List (Int × Digraph.DijkstraInfo)) (pq : List (Int × Int)),
      DijkstraInv g s vData pq →
      DijkstraInv g s (Digraph.dijkstraLoop g w fuel vData pq) [] := by
  intro fuel
  induction fuel with
  | zero =>
    intro vData pq hInv
    obtain ⟨h₁, h₂, h₃, h₄, _⟩ := hInv
    exact ⟨h₁, h₂, h₃, h₄, by simp⟩
  | succ n ih =>
    intro vData pq hInv
    obtain ⟨hkeys, hd, hstart, hp, hq⟩ := hInv
    simp only [Digraph.dijkstraLoop]
    cases hpop : Digraph.pqPop pq with
    | none => exact ⟨hkeys, hd, hstart, hp, by simp⟩
    | some xr =>
      obtain ⟨⟨key, vIdx⟩, pq₁⟩ := xr
      obtain ⟨hmem, hsub⟩ := pqPop_mem hpop
      obtain ⟨hvIdxK, hvreach⟩ := hq _ hmem
      have hq₁ : ∀ x ∈ pq₁, x.2 ∈ g.container.map Prod.fst ∧ Reachable g s x.2 :=
        fun x hx => hq x (hsub x hx)
      obtain ⟨vinfo, hvfind⟩ := mem_keys_exists_find
        (show vIdx ∈ vData.map Prod.fst by rw [hkeys]; exact hvIdxK)
      have hget : mapGetD vIdx vData Digraph.dflt = vinfo := by simp [mapGetD, hvfind]
      simp only [hget]
      by_cases hflag : vinfo.kFlag
      · rw [if_pos hflag]
        exact ih vData pq₁ ⟨hkeys, hd, hstart, hp, hq₁⟩
      · rw [if_neg hflag]
        have hInv₁ : DijkstraInv g s (mapSet vIdx ⟨true, vinfo.d, vinfo.p⟩ vData) pq₁ := by
          refine ⟨?_, ?_, ?_, ?_, hq₁⟩
          · rw [mapSet_keys_of_mem (by rw [hkeys]; exact hwf.1)
              (by rw [hkeys]; exact hvIdxK), hkeys]
          · intro kv hkv
            rcases mem_mapSet hkv with hkv | hkv
            · subst hkv; exact hd (vIdx, vinfo) (mapFind_mem hvfind)
            · exact hd _ hkv
          · obtain ⟨b, hb⟩ := hstart
            by_cases hse : vIdx = s
            · subst hse
              rw [hvfind] at hb
              simp only [Option.some.injEq] at hb
              rw [hb]
              exact ⟨true, mapFind_mapSet_self _ _ _⟩
            · exact ⟨b, by rw [mapFind_mapSet_ne _ _ _ _ (fun h => hse h.symm)]; exact hb⟩
          · intro kv hkv
            rcases mem_mapSet hkv with hkv | hkv
            · subst hkv; intro _; exact hvreach
            · exact hp _ hkv
        obtain ⟨vx, hvx⟩ := mem_keys_exists_find hvIdxK
        have hes : ∀ e ∈ vx.edges, EdgeStep g vIdx e.toVertex ∧
            e.toVertex ∈ g.container.map Prod.fst := by
          intro e he
          exact ⟨⟨vx, hvx, e, he, rfl⟩, (hwf.2 _ (mapFind_mem hvx) e he).2⟩
        simp only [hvx, Option.elim]
        exact ih _ _ (relaxEdges_inv g s vIdx w hw hwf hvreach hvIdxK vx.edges _ pq₁
          hes hInv₁)

theorem mapFind_mem_keys {l : List (Int × α)} {k : Int} {v : α}
    (h : mapFind k l = some v) : k ∈ l.map Prod.fst :=
  List.mem_map.mpr ⟨(k, v), mapFind_mem h, rfl⟩

theorem mapFind_of_mem_nodup {l : List (Int × α)} {k : Int} {v : α}
    (hnd : (l.map Prod.fst).Nodup) (h : (k, v) ∈ l) : mapFind k l = some v := by
  induction l with
  | nil => simp at h
  | cons kv rest ih =>
    simp only [List.map_cons, List.nodup_cons] at hnd
    rcases List.mem_cons.mp h with h | h
    · subst h; simp [mapFind]
    · have hk : k ≠ kv.1 := by
        intro hkeq
        apply hnd.1
        rw [← hkeq]
        exact List.mem_map.mpr ⟨(k, v), h, rfl⟩
      simp [mapFind, hk, ih hnd.2 h]

theorem falseCount_mapSet_true {vis : List (Int × Bool)} {k : Int}
    (hsort : (vis.map Prod.fst).Pairwise (· < ·))
    (h : mapFind k vis = some false) :
    falseCount (mapSet k true vis) + 1 = falseCount vis := by
  induction vis with
  | nil => simp [mapFind] at h
  | cons kv rest ih =>
    simp only [List.map_cons, List.pairwise_cons] at hsort
    by_cases hk : k = kv.1
    · have hb : kv.2 = false := by
        simp [mapFind, hk] at h
        exact h
      have hlt : ¬ k < kv.1 := by omega
      simp [mapSet, hlt, hk, falseCount, hb]
    · simp only [mapFind, hk, if_neg hk] at h
      have hmem : k ∈ rest.map Prod.fst := mapFind_mem_keys h
      have hgt : kv.1 < k := hsort.1 k hmem
      have hlt : ¬ k < kv.1 := by omega
      have ih₁ := ih hsort.2 h
      cases hb : kv.2 with
      | false => simp [mapSet, hlt, hk, falseCount, hb] at ih₁ ⊢; omega
      | true => simpa [mapSet, hlt, hk, falseCount, hb] using ih₁

theorem mapSet_find_self {l : List (Int × α)} {k : Int} {v : α}
    (hsort : (l.map Prod.fst).Pairwise (· < ·))
    (h : mapFind k l = some v) : mapSet k v l = l := by
  induction l with
  | nil => simp [mapFind] at h
  | cons kv rest ih =>
    simp only [List.map_cons, List.pairwise_cons] at hsort
    by_cases hk : k = kv.1
    · have hv : v = kv.2 := by
        simp [mapFind, hk] at h
        exact h.symm
      have hlt : ¬ k < kv.1 := by omega
      simp [mapSet, hlt, hk, hv]
    · simp only [mapFind, if_neg hk] at h
      have hgt : kv.1 < k := hsort.1 k (mapFind_mem_keys h)
      have hlt : ¬ k < kv.1 := by omega
      simp [mapSet, hlt, hk, ih hsort.2 h]

theorem falseCount_mapSet_le {vis : List (Int × Bool)} {k : Int}
    (hsort : (vis.map Prod.fst).Pairwise (· < ·))
    (hmem : k ∈ vis.map Prod.fst) :
    falseCount (mapSet k true vis) ≤ falseCount vis := by
  obtain ⟨b, hb⟩ := mem_keys_exists_find hmem
  cases b with
  | false =>
    have := falseCount_mapSet_true hsort hb
    omega
  | true =>
    rw [mapSet_find_self hsort hb]

theorem keys_freshVisit (g : Digraph V E) :
    (Digraph.freshVisit g).map Prod.fst = g.container.map Prod.fst := by
  simp [Digraph.freshVisit]

theorem mapGetD_freshVisit (g : Digraph V E) (k : Int) :
    mapGetD k (Digraph.freshVisit g) false = false := by
  unfold Digraph.freshVisit mapGetD
  rw [show (fun kv : Int × DigraphVertex V E => (kv.1, false)) =
    (fun kv : Int × DigraphVertex V E => (kv.1, (fun _ => false) kv)) from rfl,
    mapFind_map_val]
  cases mapFind k g.container <;> rfl

theorem falseCount_freshVisit (g : Digraph V E) :
    falseCount (Digraph.freshVisit g) = g.container.length := by
  simp [Digraph.freshVisit, falseCount, List.filter_map, Function.comp]

theorem countConnect_eq_iff (g : Digraph V E) (vis : List (Int × Bool))
    (hsort : (g.container.map Prod.fst).Pairwise (· < ·))
    (hkeys : vis.map Prod.fst = g.container.map Prod.fst) :
    (Digraph.countConnectVertices vis = g.container.length ↔
      ∀ k ∈ g.container.map Prod.fst, mapGetD k vis false = true) := by
  have hlen : vis.length = g.container.length := by
    have := congrArg List.length hkeys
    simpa using this
  have hnd : (vis.map Prod.fst).Nodup := by
    rw [hkeys]
    exact hsort.nodup
  constructor
  · intro hcount k hk
    have hall : Digraph.countConnectVertices vis = vis.length := by rw [hcount, hlen]
    have hfil : vis.filter (fun kv => kv.2 = true) = vis :=
      (List.filter_sublist vis).eq_of_length hall
    have htrue : ∀ kv ∈ vis, kv.2 = true := by
      intro kv hkv
      have := List.filter_eq_self.mp hfil kv hkv
      simpa using this
    obtain ⟨b, hb⟩ := mem_keys_exists_find (show k ∈ vis.map Prod.fst by rw [hkeys]; exact hk)
    have := htrue _ (mapFind_mem hb)
    simp only [mapGetD, hb, Option.getD_some]
    simpa using this
  · intro hall
    have htrue : ∀ kv ∈ vis, kv.2 = true := by
      intro kv hkv
      have hk : kv.1 ∈ g.container.map Prod.fst := by
        rw [← hkeys]
        exact List.mem_map.mpr ⟨kv, hkv, rfl⟩
      have hfind : mapFind kv.1 vis = some kv.2 := mapFind_of_mem_nodup hnd hkv
      have := hall kv.1 hk
      rw [mapGetD, hfind] at this
      simpa using this
    have hfil : vis.filter (fun kv => kv.2 = true) = vis := by
      rw [List.filter_eq_self]
      intro kv hkv
      simp [htrue kv hkv]
    unfold Digraph.countConnectVertices
    rw [hfil, hlen]

theorem dftFold_mono_aux (g : Digraph V E) (n : Nat)
    (ihn : ∀ (v : Int) (vis : List (Int × Bool)) (k : Int),
      mapGetD k vis false = true → mapGetD k (Digraph.DFTr g n v vis) false = true) :
    ∀ (es : List (DigraphEdge E)) (vis : List (Int × Bool)) (k : Int),
      mapGetD k vis false = true →
      mapGetD k (es.foldl (fun vs e =>
        if mapGetD e.toVertex vs false = false then Digraph.DFTr g n e.toVertex vs else vs)
        vis) false = true := by
  intro es
  induction es with
  | nil => intro vis k h; simpa using h
  | cons e rest ihes =>
    intro vis k h
    simp only [List.foldl_cons]
    by_cases hc : mapGetD e.toVertex vis false = false
    · rw [if_pos hc]
      exact ihes _ _ (ihn _ _ _ h)
    · rw [if_neg hc]
      exact ihes _ _ h

theorem mapGetD_mapSet_self (k : Int) (v : α) (l : List (Int × α)) (d : α) :
    mapGetD k (mapSet k v l) d = v := by
  simp [mapGetD, mapFind_mapSet_self]

theorem mapGetD_mapSet_ne (k k₁ : Int) (v : α) (l : List (Int × α)) (d : α) (h : k₁ ≠ k) :
    mapGetD k₁ (mapSet k v l) d = mapGetD k₁ l d := by
  simp [mapGetD, mapFind_mapSet_ne k k₁ v l h]

theorem DFTr_mono (g : Digraph V E) :
    ∀ (fuel : Nat) (v : Int) (vis : List (Int × Bool)) (k : Int),
      mapGetD k vis false = true →
      mapGetD k (Digraph.DFTr g fuel v vis) false = true := by
  intro fuel
  induction fuel with
  | zero => intro v vis k h; simpa [Digraph.DFTr] using h
  | succ n ih =>
    intro v vis k h
    have h₁ : mapGetD k (mapSet v true vis) false = true := by
      by_cases hkv : k = v
      · subst hkv; rw [mapGetD_mapSet_self]
      · rw [mapGetD_mapSet_ne v k true vis false hkv]; exact h
    simp only [Digraph.DFTr]
    exact dftFold_mono_aux g n ih _ _ _ h₁

theorem DFTr_marks_root (g : Digraph V E) (fuel : Nat) (v : Int)
    (vis : List (Int × Bool)) (h : 0 < fuel) :
    mapGetD v (Digraph.DFTr g fuel v vis) false = true := by
  cases fuel with
  | zero => omega
  | succ n =>
    simp only [Digraph.DFTr]
    exact dftFold_mono_aux g n (DFTr_mono g n) _ _ _ (mapGetD_mapSet_self v true vis false)

theorem dftFold_keys_aux (g : Digraph V E) (n : Nat)
    (ihn : ∀ (v : Int) (vis : List (Int × Bool)),
      v ∈ g.container.map Prod.fst →
      vis.map Prod.fst = g.container.map Prod.fst →
      (Digraph.DFTr g n v vis).map Prod.fst = g.container.map Prod.fst) :
    ∀ (es : List (DigraphEdge E)) (vis : List (Int × Bool)),
      (∀ e ∈ es, e.toVertex ∈ g.container.map Prod.fst) →
      vis.map Prod.fst = g.container.map Prod.fst →
      (es.foldl (fun vs e =>
        if mapGetD e.toVertex vs false = false then Digraph.DFTr g n e.toVertex vs else vs)
        vis).map Prod.fst = g.container.map Prod.fst := by
  intro es
  induction es with
  | nil => intro vis _ hk; simpa using hk
  | cons e rest ihes =>
    intro vis hes hk
    simp only [List.foldl_cons]
    have hes₁ : ∀ x ∈ rest, x.toVertex ∈ g.container.map Prod.fst :=
      fun x hx => hes x (List.mem_cons_of_mem e hx)
    by_cases hc : mapGetD e.toVertex vis false = false
    · rw [if_pos hc]
      exact ihes _ hes₁ (ihn _ _ (hes e (List.mem_cons_self e rest)) hk)
    · rw [if_neg hc]
      exact ihes _ hes₁ hk

theorem DFTr_keys (g : Digraph V E) (hwf : WellFormed g) :
    ∀ (fuel : Nat) (v : Int) (vis : List (Int × Bool)),
      v ∈ g.container.map Prod.fst →
      vis.map Prod.fst = g.container.map Prod.fst →
      (Digraph.DFTr g fuel v vis).map Prod.fst = g.container.map Prod.fst := by
  intro fuel
  induction fuel with
  | zero => intro v vis _ hk; simpa [Digraph.DFTr] using hk
  | succ n ih =>
    intro v vis hv hk
    obtain ⟨vx, hvx⟩ := mem_keys_exists_find hv
    have h₁ : (mapSet v true vis).map Prod.fst = g.container.map Prod.fst := by
      rw [mapSet_keys_of_mem (by rw [hk]; exact hwf.1) (by rw [hk]; exact hv), hk]
    simp only [Digraph.DFTr, hvx, Option.elim]
    exact dftFold_keys_aux g n ih vx.edges _
      (fun e he => (hwf.2 _ (mapFind_mem hvx) e he).2) h₁

theorem dftFold_sound_aux (g : Digraph V E) (n : Nat) (v : Int)
    (ihn : ∀ (v₁ : Int) (vis : List (Int × Bool)) (k : Int),
      mapGetD k (Digraph.DFTr g n v₁ vis) false = true →
      mapGetD k vis false = true ∨ Reachable g v₁ k) :
    ∀ (es : List (DigraphEdge E)) (vis : List (Int × Bool)) (k : Int),
      (∀ e ∈ es, EdgeStep g v e.toVertex) →
      mapGetD k (es.foldl (fun vs e =>
        if mapGetD e.toVertex vs false = false then Digraph.DFTr g n e.toVertex vs else vs)
        vis) false = true →
      mapGetD k vis false = true ∨ Reachable g v k := by
  intro es
  induction es with
  | nil => intro vis k _ h; exact Or.inl (by simpa using h)
  | cons e rest ihes =>
    intro vis k hes h
    simp only [List.foldl_cons] at h
    have hes₁ : ∀ x ∈ rest, EdgeStep g v x.toVertex :=
      fun x hx => hes x (List.mem_cons_of_mem e hx)
    by_cases hc : mapGetD e.toVertex vis false = false
    · rw [if_pos hc] at h
      rcases ihes _ _ hes₁ h with h₁ | h₁
      · rcases ihn _ _ _ h₁ with h₂ | h₂
        · exact Or.inl h₂
        · exact Or.inr (Relation.ReflTransGen.head
            (hes e (List.mem_cons_self e rest)) h₂)
      · exact Or.inr h₁
    · rw [if_neg hc] at h
      exact ihes _ _ hes₁ h

theorem DFTr_sound (g : Digraph V E) :
    ∀ (fuel : Nat) (v : Int) (vis : List (Int × Bool)) (k : Int),
      mapGetD k (Digraph.DFTr g fuel v vis) false = true →
      mapGetD k vis false = true ∨ Reachable g v k := by
  intro fuel
  induction fuel with
  | zero => intro v vis k h; exact Or.inl (by simpa [Digraph.DFTr] using h)
  | succ n ih =>
    intro v vis k h
    simp only [Digraph.DFTr] at h
    have hstep : mapGetD k (mapSet v true vis) false = true ∨ Reachable g v k := by
      cases hvx : mapFind v g.container with
      | none =>
        rw [hvx] at h
        exact Or.inl (by simpa using h)
      | some vx =>
        rw [hvx] at h
        exact dftFold_sound_aux g n v ih vx.edges _ k
          (fun e he => ⟨vx, hvx, e, he, rfl⟩) h
    rcases hstep with h₁ | h₁
    · by_cases hkv : k = v
      · subst hkv; exact Or.inr Relation.ReflTransGen.refl
      · rw [mapGetD_mapSet_ne v k true vis false hkv] at h₁
        exact Or.inl h₁
    · exact Or.inr h₁

theorem dftFold_main_aux (g : Digraph V E) (hwf : WellFormed g) (n : Nat) (v : Int)
    (vis : List (Int × Bool))
    (ihn : ∀ (v₁ : Int) (vis₁ : List (Int × Bool)),
      vis₁.map Prod.fst = g.container.map Prod.fst →
      v₁ ∈ g.container.map Prod.fst →
      mapGetD v₁ vis₁ false = false →
      falseCount vis₁ < n →
      falseCount (Digraph.DFTr g n v₁ vis₁) < falseCount vis₁ ∧
      ∀ k, mapGetD k (Digraph.DFTr g n v₁ vis₁) false = true →
        mapGetD k vis₁ false = true ∨
        ∀ k₁, EdgeStep g k k₁ → mapGetD k₁ (Digraph.DFTr g n v₁ vis₁) false = true) :
    ∀ (es : List (DigraphEdge E)) (cur : List (Int × Bool)),
      (∀ e ∈ es, e.toVertex ∈ g.container.map Prod.fst) →
      cur.map Prod.fst = g.container.map Prod.fst →
      falseCount cur < n →
      (∀ k, mapGetD k cur false = true →
        mapGetD k vis false = true ∨ k = v ∨
        ∀ k₁, EdgeStep g k k₁ → mapGetD k₁ cur false = true) →
      (es.foldl (fun vs e =>
          if mapGetD e.toVertex vs false = false then Digraph.DFTr g n e.toVertex vs else vs)
          cur).map Prod.fst = g.container.map Prod.fst ∧
      falseCount (es.foldl (fun vs e =>
          if mapGetD e.toVertex vs false = false then Digraph.DFTr g n e.toVertex vs else vs)
          cur) ≤ falseCount cur ∧
      (∀ k, mapGetD k (es.foldl (fun vs e =>
          if mapGetD e.toVertex vs false = false then Digraph.DFTr g n e.toVertex vs else vs)
          cur) false = true →
        mapGetD k vis false = true ∨ k = v ∨
        ∀ k₁, EdgeStep g k k₁ → mapGetD k₁ (es.foldl (fun vs e =>
          if mapGetD e.toVertex vs false = false then Digraph.DFTr g n e.toVertex vs else vs)
          cur) false = true) ∧
      (∀ e ∈ es, mapGetD e.toVertex (es.foldl (fun vs e =>
          if mapGetD e.toVertex vs false = false then Digraph.DFTr g n e.toVertex vs else vs)
          cur) false = true) := by
  intro es
  induction es with
  | nil =>
    intro cur _ hkeys hfc hclos
    exact ⟨by simpa using hkeys, by simp, by simpa using hclos, by simp⟩
  | cons e rest ihes =>
    intro cur hes hkeys hfc hclos
    have hes₁ : ∀ x ∈ rest, x.toVertex ∈ g.container.map Prod.fst :=
      fun x hx => hes x (List.mem_cons_of_mem e hx)
    have hnpos : 0 < n := Nat.pos_of_ne_zero (by omega)
    simp only [List.foldl_cons]
    by_cases hc : mapGetD e.toVertex cur false = false
    · rw [if_pos hc]
      have hemem : e.toVertex ∈ g.container.map Prod.fst :=
        hes e (List.mem_cons_self e rest)
      obtain ⟨hdec, hclosn⟩ := ihn e.toVertex cur hkeys hemem hc hfc
      have hkeysn : (Digraph.DFTr g n e.toVertex cur).map Prod.fst =
          g.container.map Prod.fst :=
        DFTr_keys g hwf n e.toVertex cur hemem hkeys
      have hroot : mapGetD e.toVertex (Digraph.DFTr g n e.toVertex cur) false = true :=
        DFTr_marks_root g n e.toVertex cur hnpos
      have hclosn₁ : ∀ k, mapGetD k (Digraph.DFTr g n e.toVertex cur) false = true →
          mapGetD k vis false = true ∨ k = v ∨
          ∀ k₁, EdgeStep g k k₁ →
            mapGetD k₁ (Digraph.DFTr g n e.toVertex cur) false = true := by
        intro k hk
        rcases hclosn k hk with h₁ | h₁
        · rcases hclos k h₁ with h₂ | h₂ | h₂
          · exact Or.inl h₂
          · exact Or.inr (Or.inl h₂)
          · exact Or.inr (Or.inr (fun k₁ hk₁ => DFTr_mono g n _ _ _ (h₂ k₁ hk₁)))
        · exact Or.inr (Or.inr h₁)
      obtain ⟨ho₁, ho₂, ho₃, ho₄⟩ := ihes (Digraph.DFTr g n e.toVertex cur) hes₁ hkeysn
        (lt_trans hdec hfc) hclosn₁
      refine ⟨ho₁, le_trans ho₂ (le_of_lt hdec), ho₃, ?_⟩
      intro x hx
      rcases List.mem_cons.mp hx with hx | hx
      · subst hx
        exact dftFold_mono_aux g n (DFTr_mono g n) rest _ _ hroot
      · exact ho₄ x hx
    · rw [if_neg hc]
      have hct : mapGetD e.toVertex cur false = true := by
        cases hcc : mapGetD e.toVertex cur false with
        | false => exact absurd hcc hc
        | true => rfl
      obtain ⟨ho₁, ho₂, ho₃, ho₄⟩ := ihes cur hes₁ hkeys hfc hclos
      refine ⟨ho₁, ho₂, ho₃, ?_⟩
      intro x hx
      rcases List.mem_cons.mp hx with hx | hx
      · subst hx
        exact dftFold_mono_aux g n (DFTr_mono g n) rest _ _ hct
      · exact ho₄ x hx

theorem DFTr_main (g : Digraph V E) (hwf : WellFormed g) :
    ∀ (n : Nat) (v : Int) (vis : List (Int × Bool)),
      vis.map Prod.fst = g.container.map Prod.fst →
      v ∈ g.container.map Prod.fst →
      mapGetD v vis false = false →
      falseCount vis < n →
      falseCount (Digraph.DFTr g n v vis) < falseCount vis ∧
      ∀ k, mapGetD k (Digraph.DFTr g n v vis) false = true →
        mapGetD k vis false = true ∨
        ∀ k₁, EdgeStep g k k₁ → mapGetD k₁ (Digraph.DFTr g n v vis) false = true := by
  intro n
  induction n with
  | zero => intro v vis _ _ _ hfc; omega
  | succ n ih =>
    intro v vis hkeys hv hvfalse hfc
    have hsort : (vis.map Prod.fst).Pairwise (· < ·) := by rw [hkeys]; exact hwf.1
    have hvmem : v ∈ vis.map Prod.fst := by rw [hkeys]; exact hv
    obtain ⟨b, hb⟩ := mem_keys_exists_find hvmem
    have hbfalse : b = false := by
      rw [mapGetD, hb] at hvfalse
      simpa using hvfalse
    subst hbfalse
    have hfc₁ : falseCount (mapSet v true vis) + 1 = falseCount vis :=
      falseCount_mapSet_true hsort hb
    have hkeys₁ : (mapSet v true vis).map Prod.fst = g.container.map Prod.fst := by
      rw [mapSet_keys_of_mem hsort hvmem, hkeys]
    obtain ⟨vx, hvx⟩ := mem_keys_exists_find hv
    have hclos₀ : ∀ k, mapGetD k (mapSet v true vis) false = true →
        mapGetD k vis false = true ∨ k = v ∨
        ∀ k₁, EdgeStep g k k₁ → mapGetD k₁ (mapSet v true vis) false = true := by
      intro k hk
      by_cases hkv : k = v
      · exact Or.inr (Or.inl hkv)
      · rw [mapGetD_mapSet_ne v k true vis false hkv] at hk
        exact Or.inl hk
    obtain ⟨ho₁, ho₂, ho₃, ho₄⟩ := dftFold_main_aux g hwf n v vis ih vx.edges
      (mapSet v true vis) (fun e he => (hwf.2 _ (mapFind_mem hvx) e he).2) hkeys₁
      (by omega) hclos₀
    constructor
    · show falseCount (Digraph.DFTr g (n + 1) v vis) < falseCount vis
      simp only [Digraph.DFTr, hvx, Option.elim]
      omega
    · intro k hk
      simp only [Digraph.DFTr, hvx, Option.elim] at hk ⊢
      rcases ho₃ k hk with h₁ | h₁ | h₁
      · exact Or.inl h₁
      · subst h₁
        refine Or.inr ?_
        intro k₁ hk₁
        obtain ⟨vx₁, hvx₁, e, he, hte⟩ := hk₁
        rw [hvx] at hvx₁
        injection hvx₁ with hvv
        subst hvv
        rw [← hte]
        exact ho₄ e he
      · exact Or.inr h₁

theorem DFTr_complete (g : Digraph V E) (hwf : WellFormed g) (s : Int)
    (hs : s ∈ g.container.map Prod.fst) :
    ∀ k, Reachable g s k →
      mapGetD k (Digraph.DFTr g (g.container.length + 1) s (Digraph.freshVisit g))
        false = true := by
  have hfc : falseCount (Digraph.freshVisit g) < g.container.length + 1 := by
    rw [falseCount_freshVisit]; omega
  obtain ⟨_, hclos⟩ := DFTr_main g hwf (g.container.length + 1) s (Digraph.freshVisit g)
    (keys_freshVisit g) hs (mapGetD_freshVisit g s) hfc
  have hroot : mapGetD s (Digraph.DFTr g (g.container.length + 1) s
      (Digraph.freshVisit g)) false = true :=
    DFTr_marks_root g _ s _ (by omega)
  have hclos₁ : ∀ k, mapGetD k (Digraph.DFTr g (g.container.length + 1) s
        (Digraph.freshVisit g)) false = true →
      ∀ k₁, EdgeStep g k k₁ →
        mapGetD k₁ (Digraph.DFTr g (g.container.length + 1) s
          (Digraph.freshVisit g)) false = true := by
    intro k hk
    rcases hclos k hk with h | h
    · rw [mapGetD_freshVisit g k] at h
      cases h
    · exact h
  intro k hreach
  induction hreach with
  | refl => exact hroot
  | tail hab hbc ih => exact hclos₁ _ ih _ hbc

/-! ### Claims -/

/-- C1.  The claim says `findShortestPaths` always finalizes the
not-yet-finalized vertex with the SMALLEST tentative distance, and that every
reached vertex maps to its predecessor on a minimum-weight path.  The
source's `Compare` is `lhs.first < rhs.first`, which makes
`std::priority_queue` pop the LARGEST key.  On `gQueueBug`, the code answers
predecessor `1` for vertex `4`, although the unique minimum path `1→3→2→4`
(total 3, versus 5 through the direct edge `1→4`) has predecessor `2` — the
answer the specification's min-queue algorithm (`findShortestPathsSpec`)
gives on the same input. -/
theorem C1_max_queue_wrong_predecessor :
    Digraph.findShortestPaths gQueueBug 1 id = .ok [(1, 1), (2, 3), (3, 1), (4, 1)] ∧
    Digraph.findShortestPathsSpec gQueueBug 1 id = .ok [(1, 1), (2, 3), (3, 1), (4, 2)] ∧
    pathWeight gQueueBug id [1, 3, 2, 4] = some 3 ∧
    pathWeight gQueueBug id [1, 4] = some 5 := by
  refine ⟨?_, ?_, ?_, ?_⟩ <;>
    norm_num [Digraph.findShortestPaths, Digraph.findShortestPathsSpec,
      Digraph.findShortestPathsQ, Digraph.dijkstraLoop, Digraph.dijkstraLoopQ,
      Digraph.relaxEdges, Digraph.relaxEdgesQ, Digraph.dijkstraInit, Digraph.pqPop,
      Digraph.pqPopQMin, Digraph.pqPopQMax, Digraph.pqPush, Digraph.cppTrunc,
      Digraph.findEdgeTo, pathWeight, mapSet, mapFind, mapGetD, mapErase, mapInsert,
      Digraph.edgeCount, Digraph.intMax, Digraph.dflt, gQueueBug, Digraph.addEdge,
      Digraph.addEdgeRun, Digraph.addVertex, Digraph.empty]

/-- C2.  The claim says a second `addEdge` on an already-present ordered pair
fails with `AlreadyExists` and leaves the graph unchanged, so no two edges
ever share a pair.  The source's `addEdge` performs no duplicate check: on
`gOneEdge` (which already has `1→2`), adding `1→2` again succeeds (no
exception) and the graph afterwards holds the pair `(1,2)` twice. -/
theorem C2_duplicate_addEdge_succeeds :
    (Digraph.addEdgeRun gOneEdge 1 2 20).1 = none ∧
    Digraph.edges (Digraph.addEdgeRun gOneEdge 1 2 20).2 = [(1, 2), (1, 2)] ∧
    Digraph.edgeCount (Digraph.addEdgeRun gOneEdge 1 2 20).2 = 2 :=
  ⟨rfl, rfl, rfl⟩

/-- C3.  The claim says `removeVertex v` always succeeds in deleting every
incoming edge, in particular when one outgoing list stores several
(consecutive) edges into `v`.  In the source, the incoming-edge scan runs
`temp.erase(it_list)` and then `it_list++` on the just-invalidated iterator —
undefined behaviour, reached as soon as ANY incoming edge exists.  On `gDup`
(vertices `{1,2}`, edges `1→2`, `1→2` stored consecutively),
`removeVertexRun gDup 2` reaches that undefined increment, modelled as
`none`. -/
theorem C3_removeVertex_invalidated_iterator :
    Digraph.vertices gDup = [1, 2] ∧
    Digraph.edges gDup = [(1, 2), (1, 2)] ∧
    Digraph.removeVertexRun gDup 2 = none :=
  ⟨rfl, rfl, rfl⟩

/-- C4.  The claim says `addVertex` on an existing identifier fails with
`AlreadyExists` (and leaves the stored payload unchanged).  The source's
`addVertex` is a bare `container.insert(...)` with no check and no throw:
the duplicate call returns normally and is a silent no-op.  (The payload is
indeed unchanged — `std::map::insert` does not overwrite.) -/
theorem C4_duplicate_addVertex_silent_noop :
    Digraph.addVertex gV1 1 20 = gV1 ∧
    Digraph.vertexInfo (Digraph.addVertex gV1 1 20) 1 = .ok 10 :=
  ⟨rfl, rfl⟩

/-- C5 (counterexample).  The claim says a moved-from graph is left empty
(no vertices and no edges).  Move-constructing from the one-vertex graph
`gV1` leaves the source still holding vertex `1`. -/
theorem C5_counterexample_move_source_not_empty :
    ¬ ((Digraph.moveConstruct gV1).2.vertices = [] ∧ (Digraph.moveConstruct gV1).2.edges = []) := by
  intro h
  exact absurd h.1 (by decide)

/-- C5 (amended).  Moving a graph (move construction or move assignment)
transfers its contents to the destination, but — because both move
operations copy `d.container` rather than moving from it — the moved-from
graph is left valid and UNCHANGED, still holding all its vertices and
edges, not empty. -/
theorem C5_amended_move_copies_and_source_unchanged (d t : Digraph V E) :
    (Digraph.moveConstruct d).1 = d ∧ (Digraph.moveConstruct d).2 = d ∧
    (Digraph.moveAssign t d).1 = d ∧ (Digraph.moveAssign t d).2 = d :=
  ⟨rfl, rfl, rfl, rfl⟩

/-- C6.  The claim says tentative distances are compared and stored as the
exact numeric sum of the (possibly fractional) edge weights.  The source
stores them in the `int` field `DijkstraInfo::d`, truncating every sum.  On
`gTrunc` the code records the two-hop route `1→2→3` (exact total 6/5) as
distance `0` and answers predecessor `2` for vertex `3`, while keeping the
sums exact (`findShortestPathsExactD`, the source with only the truncation
removed) answers the direct edge's predecessor `1`, the correct one since
6/5 > 1. -/
theorem C6_truncated_distances_change_result :
    Digraph.findShortestPaths gTrunc 1 id = .ok [(1, 1), (2, 1), (3, 2)] ∧
    Digraph.findShortestPathsExactD gTrunc 1 id = .ok [(1, 1), (2, 1), (3, 1)] ∧
    pathWeight gTrunc id [1, 2, 3] = some (6 / 5) ∧
    pathWeight gTrunc id [1, 3] = some 1 ∧
    (6 / 5 : ℚ) > 1 := by
  refine ⟨?_, ?_, ?_, ?_, by norm_num⟩ <;>
    norm_num [Digraph.findShortestPaths, Digraph.findShortestPathsExactD,
      Digraph.findShortestPathsQ, Digraph.dijkstraLoop, Digraph.dijkstraLoopQ,
      Digraph.relaxEdges, Digraph.relaxEdgesQ, Digraph.dijkstraInit, Digraph.pqPop,
      Digraph.pqPopQMin, Digraph.pqPopQMax, Digraph.pqPush, Digraph.cppTrunc,
      Digraph.findEdgeTo, pathWeight, mapSet, mapFind, mapGetD, mapErase, mapInsert,
      Digraph.edgeCount, Digraph.intMax, Digraph.dflt, gTrunc, gPair, Digraph.addEdge,
      Digraph.addEdgeRun, Digraph.addVertex, Digraph.empty]

/-- C7.  For every well-formed graph, every existing start vertex and every
non-negative weight function, `findShortestPaths` succeeds with a map whose
keys are exactly the graph's vertex identifiers, which maps the start vertex
to itself, and which maps every vertex not reachable from the start to itself
(the self-reference "unreached" sentinel). -/
theorem C7_result_keys_start_unreached (g : Digraph V E) (s : Int) (w : E → ℚ)
    (hwf : WellFormed g) (hs : s ∈ g.vertices) (hw : ∀ x, 0 ≤ w x) :
    ∃ m, Digraph.findShortestPaths g s w = .ok m ∧
      m.map Prod.fst = g.vertices ∧
      mapFind s m = some s ∧
      ∀ v ∈ g.vertices, ¬ Reachable g s v → mapFind v m = some v := by
  have hs₁ : s ∈ g.container.map Prod.fst := hs
  obtain ⟨vx₀, hvx₀⟩ := mem_keys_exists_find hs₁
  obtain ⟨hkeys, _, hstart, hp, _⟩ :=
    dijkstraLoop_inv g s w hwf hw (2 + g.edgeCount.toNat) (Digraph.dijkstraInit g s)
      [(0, s)] (dijkstraInv_init g s hwf hs₁)
  have hsortF : ((Digraph.dijkstraLoop g w (2 + g.edgeCount.toNat)
      (Digraph.dijkstraInit g s) [(0, s)]).map Prod.fst).Pairwise (· < ·) := by
    rw [hkeys]; exact hwf.1
  have hans : (Digraph.dijkstraLoop g w (2 + g.edgeCount.toNat)
        (Digraph.dijkstraInit g s) [(0, s)]).foldl
        (fun ans kv => mapSet kv.1 kv.2.p ans) [] =
      (Digraph.dijkstraLoop g w (2 + g.edgeCount.toNat)
        (Digraph.dijkstraInit g s) [(0, s)]).map (fun kv => (kv.1, kv.2.p)) := by
    simpa using foldl_mapSet_sorted
      (fun kv : Int × Digraph.DijkstraInfo => kv.2.p) _ [] (by simpa using hsortF)
  refine ⟨(Digraph.dijkstraLoop g w (2 + g.edgeCount.toNat)
    (Digraph.dijkstraInit g s) [(0, s)]).map (fun kv => (kv.1, kv.2.p)), ?_, ?_, ?_, ?_⟩
  · unfold Digraph.findShortestPaths
    rw [hvx₀]
    simp only [hans]
  · rw [show ∀ l : List (Int × Digraph.DijkstraInfo),
      (l.map (fun kv => (kv.1, kv.2.p))).map Prod.fst = l.map Prod.fst from
        fun l => by simp, hkeys]
    rfl
  · rw [mapFind_map_val (fun kv : Int × Digraph.DijkstraInfo => kv.2.p) s]
    obtain ⟨b, hb⟩ := hstart
    rw [hb]
    rfl
  · intro v hv hnr
    obtain ⟨info, hinfo⟩ := mem_keys_exists_find
      (show v ∈ (Digraph.dijkstraLoop g w (2 + g.edgeCount.toNat)
        (Digraph.dijkstraInit g s) [(0, s)]).map Prod.fst by rw [hkeys]; exact hv)
    have hpv : info.p = v := by
      by_contra hne
      exact hnr (hp (v, info) (mapFind_mem hinfo) hne)
    rw [mapFind_map_val (fun kv : Int × Digraph.DijkstraInfo => kv.2.p) v, hinfo]
    simp [hpv]

/-- C7 witness: on the graph with vertices `{1, 2}` and no edges, everything
needed of the theorem holds with start `1` and constant weight 1. -/
theorem C7_witness :
    ∃ m, Digraph.findShortestPaths gPair 1 (fun _ => 1) = .ok m ∧
      m.map Prod.fst = gPair.vertices ∧
      mapFind 1 m = some 1 ∧
      ∀ v ∈ gPair.vertices, ¬ Reachable gPair 1 v → mapFind v m = some v :=
  C7_result_keys_start_unreached gPair 1 (fun _ => 1) (by decide) (by decide)
    (fun _ => by norm_num)

/-- C8.  `isStronglyConnected()` returns true iff every vertex can reach
every other vertex along directed edges (proved for every well-formed graph,
over any payload types); in particular it returns true for the empty graph
and for a single-vertex graph, false for vertices `{1,2}` with the single
edge `1→2`, and true for the 3-cycle `1→2→3→1`. -/
theorem C8_isStronglyConnected_iff :
    (∀ (V E : Type) (g : Digraph V E), WellFormed g →
      (Digraph.isStronglyConnected g = true ↔
        ∀ u ∈ g.vertices, ∀ k ∈ g.vertices, Reachable g u k)) ∧
    Digraph.isStronglyConnected (Digraph.empty : Digraph Int Int) = true ∧
    Digraph.isStronglyConnected gV1 = true ∧
    Digraph.isStronglyConnected gOneEdge = false ∧
    Digraph.isStronglyConnected gCycle3 = true := by
  refine ⟨?_, by decide, by decide, by decide, by decide⟩
  intro V E g hwf
  unfold Digraph.isStronglyConnected
  rw [List.all_eq_true]
  constructor
  · intro hall u hu k hk
    obtain ⟨kv, hkv, hkvu⟩ := List.mem_map.mp hu
    have h₁ := hall kv hkv
    rw [decide_eq_true_eq] at h₁
    have h₂ := (countConnect_eq_iff g _ hwf.1
      (DFTr_keys g hwf _ kv.1 _ (List.mem_map.mpr ⟨kv, hkv, rfl⟩)
        (keys_freshVisit g))).mp h₁
    rcases DFTr_sound g _ kv.1 _ k (h₂ k hk) with h₄ | h₄
    · rw [mapGetD_freshVisit g k] at h₄
      cases h₄
    · rw [← hkvu]
      exact h₄
  · intro hreach kv hkv
    rw [decide_eq_true_eq]
    refine (countConnect_eq_iff g _ hwf.1
      (DFTr_keys g hwf _ kv.1 _ (List.mem_map.mpr ⟨kv, hkv, rfl⟩)
        (keys_freshVisit g))).mpr ?_
    intro k hk
    exact DFTr_complete g hwf kv.1 (List.mem_map.mpr ⟨kv, hkv, rfl⟩) k
      (hreach kv.1 (List.mem_map.mpr ⟨kv, hkv, rfl⟩) k hk)

/-- C8 witness: the general equivalence applied to the concrete 3-cycle. -/
theorem C8_witness :
    Digraph.isStronglyConnected gCycle3 = true ↔
      ∀ u ∈ gCycle3.vertices, ∀ k ∈ gCycle3.vertices, Reachable gCycle3 u k :=
  C8_isStronglyConnected_iff.1 Int Int gCycle3 (by decide)

/-- C9.  Every mutating operation that fails leaves the graph exactly as it
was: `addEdge` and `removeEdge` throw before touching anything,
`removeVertex` throws (when the vertex is absent) before erasing anything,
and `addVertex` cannot fail at all in the source. -/
theorem C9_failed_mutations_leave_graph_unchanged (g : Digraph V E)
    (fromVertex toVertex vertex : Int) (einfo : E) :
    ((Digraph.addEdgeRun g fromVertex toVertex einfo).1.isSome →
      (Digraph.addEdgeRun g fromVertex toVertex einfo).2 = g) ∧
    ((Digraph.removeEdgeRun g fromVertex toVertex).1.isSome →
      (Digraph.removeEdgeRun g fromVertex toVertex).2 = g) ∧
    (∀ err g₁, Digraph.removeVertexRun g vertex = some (some err, g₁) → g₁ = g) := by
  refine ⟨?_, ?_, ?_⟩
  · cases h₁ : mapFind fromVertex g.container with
    | none => simp [Digraph.addEdgeRun, h₁]
    | some vx =>
      cases h₂ : mapFind toVertex g.container with
      | none => simp [Digraph.addEdgeRun, h₁, h₂]
      | some tv => simp [Digraph.addEdgeRun, h₁, h₂]
  · cases h₁ : mapFind fromVertex g.container with
    | none => simp [Digraph.removeEdgeRun, h₁]
    | some vx =>
      cases h₂ : Digraph.eraseFirstEdgeTo toVertex vx.edges with
      | none => simp [Digraph.removeEdgeRun, h₁, h₂]
      | some es => simp [Digraph.removeEdgeRun, h₁, h₂]
  · cases h₁ : mapFind vertex g.container with
    | none =>
      intro err g₁ h
      simp only [Digraph.removeVertexRun, h₁, Option.some.injEq, Prod.mk.injEq] at h
      exact h.2.symm
    | some vx =>
      intro err g₁ h
      simp only [Digraph.removeVertexRun, h₁] at h
      cases h₂ : Digraph.eraseIncomingAll vertex (mapErase vertex g.container) with
      | none => rw [h₂] at h; cases h
      | some c => rw [h₂] at h; simp at h

/-- C9 witness: on the empty graph, `addEdge 1 2`, `removeEdge 1 2` and
`removeVertex 5` all fail, and each leaves the graph empty. -/
theorem C9_witness :
    (Digraph.addEdgeRun (Digraph.empty : Digraph Int Int) 1 2 3).2 = Digraph.empty ∧
    (Digraph.removeEdgeRun (Digraph.empty : Digraph Int Int) 1 2).2 = Digraph.empty ∧
    ∀ err g₁, Digraph.removeVertexRun (Digraph.empty : Digraph Int Int) 5 =
      some (some err, g₁) → g₁ = Digraph.empty := by
  refine ⟨?_, ?_, ?_⟩
  · exact (C9_failed_mutations_leave_graph_unchanged Digraph.empty 1 2 5 3).1 (by decide)
  · exact (C9_failed_mutations_leave_graph_unchanged Digraph.empty 1 2 5 3).2.1 (by decide)
  · exact (C9_failed_mutations_leave_graph_unchanged Digraph.empty 1 2 5 3).2.2

/-- C10.  When several edges with the same ordered pair coexist in a
`fromVertex` outgoing list (written `L₁ ++ e :: L₂` with no match in `L₁`,
so `e` is the earliest-stored match — and `addEdge` appends, so list order is
addition order, as the last conjunct shows), `edgeInfo` returns the
earliest one's payload and `removeEdge` removes exactly that earliest edge,
leaving the later duplicates in place. -/
theorem C10_first_duplicate_wins (g : Digraph V E) (fromVertex toVertex : Int) (vi : V)
    (L₁ L₂ : List (DigraphEdge E)) (e : DigraphEdge E)
    (hfind : mapFind fromVertex g.container = some ⟨vi, L₁ ++ e :: L₂⟩)
    (he : e.toVertex = toVertex)
    (hL₁ : ∀ x ∈ L₁, x.toVertex ≠ toVertex)
    (ht : (mapFind toVertex g.container).isSome) :
    Digraph.edgeInfo g fromVertex toVertex = .ok e.einfo ∧
    (Digraph.removeEdgeRun g fromVertex toVertex).1 = none ∧
    mapFind fromVertex (Digraph.removeEdgeRun g fromVertex toVertex).2.container =
      some ⟨vi, L₁ ++ L₂⟩ ∧
    ∀ i : E, mapFind fromVertex (Digraph.addEdge g fromVertex toVertex i).container =
      some ⟨vi, (L₁ ++ e :: L₂) ++ [⟨fromVertex, toVertex, i⟩]⟩ := by
  obtain ⟨tv, htv⟩ := Option.isSome_iff_exists.mp ht
  refine ⟨?_, ?_, ?_, ?_⟩
  · simp [Digraph.edgeInfo, hfind, findEdgeTo_first toVertex L₁ L₂ e he hL₁]
  · simp [Digraph.removeEdgeRun, hfind, eraseFirstEdgeTo_first toVertex L₁ L₂ e he hL₁]
  · simp [Digraph.removeEdgeRun, hfind, eraseFirstEdgeTo_first toVertex L₁ L₂ e he hL₁,
      mapFind_mapSet_self]
  · intro i
    simp [Digraph.addEdge, Digraph.addEdgeRun, hfind, htv, mapFind_mapSet_self]

/-- C10 witness: in `gDup` (edges `1→2` payload 10 then `1→2` payload 20),
`edgeInfo` answers 10, and `removeEdge` keeps exactly the payload-20 edge. -/
theorem C10_witness :
    Digraph.edgeInfo gDup 1 2 = .ok 10 ∧
    (Digraph.removeEdgeRun gDup 1 2).1 = none ∧
    mapFind 1 (Digraph.removeEdgeRun gDup 1 2).2.container =
      some ⟨0, [] ++ [⟨1, 2, 20⟩]⟩ := by
  have h := C10_first_duplicate_wins gDup 1 2 0 [] [⟨1, 2, 20⟩] ⟨1, 2, 10⟩
    (by decide) (by decide) (by simp) (by decide)
  exact ⟨h.1, h.2.1, h.2.2.1⟩

end DG
